import Mathlib

/-!
Verification of the fragmentation / assembly / fragment-serving core of a
small P2P file-sharing program (Go source: `fragment.go`, `main.go`).

Bytes are modelled as natural numbers (the values 0..255 produced by the
program); byte sequences as `List Nat`.  Go maps are modelled as functions
into `Option`.  The in-place `sort.Slice` mutation performed by
`AssembleFile` is made explicit: the Lean model of `AssembleFile` returns
both the final state of the caller's slice and the operation's result.
-/

/-! ## SHA-256 (FIPS 180-4), as called by the source via `crypto/sha256` -/

/-- Truncate to a 32-bit word, as Go's `uint32` arithmetic does. -/
def w32 (n : Nat) : Nat := n % 4294967296

/-- Right rotation of a 32-bit word. -/
def rotr (x n : Nat) : Nat := w32 ((x >>> n) ||| (x <<< (32 - n)))

/-- SHA-256 `Ch` function. -/
def shaCh (x y z : Nat) : Nat := (x &&& y) ^^^ ((4294967295 ^^^ x) &&& z)

/-- SHA-256 `Maj` function. -/
def shaMaj (x y z : Nat) : Nat := (x &&& y) ^^^ (x &&& z) ^^^ (y &&& z)

/-- SHA-256 Σ₀. -/
def bigSigma0 (x : Nat) : Nat := rotr x 2 ^^^ rotr x 13 ^^^ rotr x 22

/-- SHA-256 Σ₁. -/
def bigSigma1 (x : Nat) : Nat := rotr x 6 ^^^ rotr x 11 ^^^ rotr x 25

/-- SHA-256 σ₀. -/
def smallSigma0 (x : Nat) : Nat := rotr x 7 ^^^ rotr x 18 ^^^ (x >>> 3)

/-- SHA-256 σ₁. -/
def smallSigma1 (x : Nat) : Nat := rotr x 17 ^^^ rotr x 19 ^^^ (x >>> 10)

/-- The 64 SHA-256 round constants (FIPS 180-4 §4.2.2, in decimal). -/
def shaK : List Nat :=
  [1116352408, 1899447441, 3049323471, 3921009573, 961987163, 1508970993,
   2453635748, 2870763221, 3624381080, 310598401, 607225278, 1426881987,
   1925078388, 2162078206, 2614888103, 3248222580, 3835390401, 4022224774,
   264347078, 604807628, 770255983, 1249150122, 1555081692, 1996064986,
   2554220882, 2821834349, 2952996808, 3210313671, 3336571891, 3584528711,
   113926993, 338241895, 666307205, 773529912, 1294757372, 1396182291,
   1695183700, 1986661051, 2177026350, 2456956037, 2730485921, 2820302411,
   3259730800, 3345764771, 3516065817, 3600352804, 4094571909, 275423344,
   430227734, 506948616, 659060556, 883997877, 958139571, 1322822218,
   1537002063, 1747873779, 1955562222, 2024104815, 2227730452, 2361852424,
   2428436474, 2756734187, 3204031479, 3329325298]

/-- The SHA-256 initial hash value (FIPS 180-4 §5.3.3, in decimal). -/
def shaH0 : List Nat :=
  [1779033703, 3144134277, 1013904242, 2773480762, 1359893119, 2600822924, 528734635, 1541459225]

/-- Big-endian byte encoding of `n` on `k` bytes. -/
def bytesOfNatBE (k : Nat) (n : Nat) : List Nat :=
  (List.range k).map (fun i => (n >>> (8 * (k - 1 - i))) % 256)

/-- Big-endian word value of a byte list. -/
def ofBytesBE (l : List Nat) : Nat := l.foldl (fun acc b => acc * 256 + b) 0

/-- SHA-256 padding: append `0x80`, zero bytes to 56 mod 64, then the 64-bit
big-endian bit length. -/
def padMessage (m : List Nat) : List Nat :=
  let L := m.length
  let zeros := (119 - L % 64) % 64
  m ++ [0x80] ++ List.replicate zeros 0 ++ bytesOfNatBE 8 (L * 8)

/-- Split a (padded, 64-divisible) byte list into its 64-byte blocks. -/
def chunk64 (l : List Nat) : List (List Nat) :=
  (List.range (l.length / 64)).map (fun i => (l.drop (64 * i)).take 64)

/-- The 16 big-endian 32-bit words of one 64-byte block. -/
def wordsOfBlock (b : List Nat) : List Nat :=
  (List.range 16).map (fun i => ofBytesBE ((b.drop (4 * i)).take 4))

/-- One extension step of the SHA-256 message schedule. -/
def scheduleStep (w : List Nat) : List Nat :=
  let t := w.length
  w ++ [w32 (smallSigma1 (w.getD (t - 2) 0) + w.getD (t - 7) 0 +
             smallSigma0 (w.getD (t - 15) 0) + w.getD (t - 16) 0)]

/-- Extend the 16 block words to the 64 schedule words. -/
def schedule (w : List Nat) : List Nat :=
  (List.range 48).foldl (fun acc _ => scheduleStep acc) w

/-- One SHA-256 compression round on the 8-word working state. -/
def compressStep (st : List Nat) (kw : Nat × Nat) : List Nat :=
  match st with
  | [a, b, c, d, e, f, g, h] =>
    let T1 := w32 (h + bigSigma1 e + shaCh e f g + kw.1 + kw.2)
    let T2 := w32 (bigSigma0 a + shaMaj a b c)
    [w32 (T1 + T2), a, b, c, w32 (d + T1), e, f, g]
  | _ => st

/-- Process one 64-byte block against the running hash value. -/
def processBlock (H : List Nat) (block : List Nat) : List Nat :=
  let w := schedule (wordsOfBlock block)
  let st := (shaK.zip w).foldl compressStep H
  (H.zip st).map (fun p => w32 (p.1 + p.2))

/-- SHA-256 digest of a byte sequence, as 32 bytes. -/
def sha256 (m : List Nat) : List Nat :=
  (((chunk64 (padMessage m)).foldl processBlock shaH0).map (bytesOfNatBE 4)).flatten

/-- Lowercase hexadecimal digit. -/
def hexChar (n : Nat) : Char := if n < 10 then Char.ofNat (48 + n) else Char.ofNat (87 + n)

/-- Two lowercase hex digits of a byte, as Go's `%x` formats each byte. -/
def byteToHex (b : Nat) : String := String.mk [hexChar (b / 16), hexChar (b % 16)]

/-- Lowercase hex-encoded SHA-256 digest: the source's
`fmt.Sprintf("%x", sha256.Sum256(data))`. -/
def sha256hex (m : List Nat) : String := String.join ((sha256 m).map byteToHex)

/-! ## Data model (`fragment.go`, `main.go`) -/

/-- `Fragment` (fragment.go): a hashed chunk of a file.  Go `int` fields are
modelled as `Int`. -/
structure Fragment where
  Hash : String
  Data : List Nat
  Index : Int
  TotalFragments : Int
  Filename : String
deriving DecidableEq, Inhabited

/-- `FileInfo` (main.go): catalog metadata for one uploaded file. -/
structure FileInfo where
  Filename : String
  FragmentHashes : List String
  TotalFragments : Int
deriving DecidableEq, Inhabited

/-- `FragmentRequest` (main.go): a fragment request by hash. -/
structure FragmentRequest where
  hash : String
deriving DecidableEq, Inhabited

/-- `FragmentResponse` (main.go): the reply to a fragment request. -/
structure FragmentResponse where
  hash : String
  data : List Nat
  found : Bool
deriving DecidableEq, Inhabited

/-! ## Fragmenter (`FragmentManager.FragmentFile`, fragment.go lines 33-68) -/

/-- The pure core of `FragmentFile` on the bytes read from the file:
`totalFragments := (len(data) + S - 1) / S`; window `i` is
`data[i*S : min((i+1)*S, len(data))]`; each fragment records the window,
its lowercase-hex SHA-256, its 0-based index, the total count and the
filename. -/
def fragmentFile (data : List Nat) (fragmentSize : Nat) (filename : String) : List Fragment :=
  let totalFragments := (data.length + fragmentSize - 1) / fragmentSize
  (List.range totalFragments).map (fun i =>
    let start := i * fragmentSize
    let stop := min (start + fragmentSize) data.length
    let fragmentData := (data.drop start).take (stop - start)
    { Hash := sha256hex fragmentData
      Data := fragmentData
      Index := (i : Int)
      TotalFragments := (totalFragments : Int)
      Filename := filename })

/-- `FragmentFile` including its fallible file read: an I/O failure is
propagated, otherwise the pure fragmentation runs and cannot fail. -/
def fragmentFileFromRead (readResult : Except String (List Nat)) (fragmentSize : Nat)
    (filename : String) : Except String (List Fragment) :=
  match readResult with
  | .error e => .error ("error leyendo archivo: " ++ e)
  | .ok data => .ok (fragmentFile data fragmentSize filename)

/-! ## Assembler (`FragmentManager.AssembleFile`, fragment.go lines 71-99) -/

/-- Insert a fragment into an index-sorted list, keeping it sorted. -/
def insertByIndex (f : Fragment) : List Fragment → List Fragment
  | [] => [f]
  | g :: gs => if f.Index ≤ g.Index then f :: g :: gs else g :: insertByIndex f gs

/-- The `sort.Slice(fragments, Index <)` call: ascending sort by `Index`.
(Insertion sort; agrees with any comparison sort whenever the relevant
fragments have distinct indices, which is the case for every list a single
file's fragmenter produces.) -/
def sortFragments : List Fragment → List Fragment
  | [] => []
  | f :: fs => insertByIndex f (sortFragments fs)

/-- `AssembleFile`.  The first component is the caller's slice after the
call (the source sorts the slice in place); the second is the outcome:
the assembled bytes on success — the source writes exactly these bytes to
the output file, and returns before creating the file on either error. -/
def assembleFile (fragments : List Fragment) : List Fragment × Except String (List Nat) :=
  match fragments with
  | [] => ([], .error "no hay fragmentos para ensamblar")
  | _ :: _ =>
    let sorted := sortFragments fragments
    if (fragments.length : Int) = (sorted.headD default).TotalFragments then
      (sorted, .ok ((sorted.map Fragment.Data).flatten))
    else
      (sorted, .error ("fragmentos incompletos: " ++ toString fragments.length ++ "/"
        ++ toString (sorted.headD default).TotalFragments))

/-! ## Node state, request handler and upload (`main.go`) -/

/-- The mutable maps of `P2PNode`: the fragment store (hash → fragment) and
the file catalog (filename → metadata). -/
structure NodeState where
  StoredFragments : String → Option Fragment
  FileMetadata : String → Option FileInfo

/-- `handleFragmentRequest` (main.go lines 111-138), after a successful
request decode: start from `{hash := req.hash, found := false}` (`data`
empty); if the store holds the hash, fill in the stored data and set
`found`. -/
def handleFragmentRequest (store : String → Option Fragment) (req : FragmentRequest) :
    FragmentResponse :=
  let response : FragmentResponse := { hash := req.hash, data := [], found := false }
  match store req.hash with
  | some fragment => { response with data := fragment.Data, found := true }
  | none => response

/-- `UploadFile` (main.go lines 141-182).  `readResult` stands for the file
read inside `FragmentFile`; `publishOk` for the outcome of the external
`DHT.PutValue` call.  Fragments are stored one by one, the catalog entry is
written, and only then is the metadata published; a publish failure is
returned after the local maps were already updated. -/
def uploadFile (n : NodeState) (readResult : Except String (List Nat)) (fragmentSize : Nat)
    (filename : String) (publishOk : Bool) : NodeState × Except String Unit :=
  match fragmentFileFromRead readResult fragmentSize filename with
  | .error e => (n, .error e)
  | .ok fragments =>
    let stored := fragments.foldl
      (fun m frag => fun k => if k = frag.Hash then some frag else m k) n.StoredFragments
    let fileInfo : FileInfo :=
      { Filename := filename
        FragmentHashes := fragments.map Fragment.Hash
        TotalFragments := (fragments.length : Int) }
    let meta := fun k => if k = filename then some fileInfo else n.FileMetadata k
    let n' : NodeState := { StoredFragments := stored, FileMetadata := meta }
    if publishOk then (n', .ok ())
    else (n', .error "error almacenando metadatos del archivo")

/-- `sortedByIndex l` decides whether `l` is already ascending by `Index`;
on such inputs the source's in-place sort leaves the slice unchanged. -/
def sortedByIndex : List Fragment → Bool
  | [] => true
  | [_] => true
  | f :: g :: t => decide (f.Index ≤ g.Index) && sortedByIndex (g :: t)

/-! ## Helper lemmas about the fragment count `(N + S - 1) / S` -/

lemma le_mul_totalFragments (N S : Nat) (hS : 0 < S) : N ≤ S * ((N + S - 1) / S) := by
  rw [← Nat.ceilDiv_eq_add_pred_div]
  exact (ceilDiv_le_iff_le_mul hS).1 le_rfl

lemma totalFragments_pos (N S : Nat) (hS : 0 < S) (hN : 0 < N) : 0 < (N + S - 1) / S := by
  by_contra h
  have h0 : (N + S - 1) / S ≤ 0 := by omega
  rw [← Nat.ceilDiv_eq_add_pred_div] at h0
  have h1 := (ceilDiv_le_iff_le_mul hS).1 h0
  simp at h1
  omega

lemma totalFragments_eq_zero (S : Nat) (hS : 0 < S) : (0 + S - 1) / S = 0 := by
  apply Nat.div_eq_of_lt
  omega

lemma mul_pred_lt (N S : Nat) (hS : 0 < S) (hN : 0 < N) :
    S * ((N + S - 1) / S - 1) < N := by
  have ht : 0 < (N + S - 1) / S := totalFragments_pos N S hS hN
  by_contra h
  have h1 : N ≤ S * ((N + S - 1) / S - 1) := by omega
  have h2 : (N + S - 1) / S ≤ (N + S - 1) / S - 1 := by
    conv_lhs => rw [← Nat.ceilDiv_eq_add_pred_div]
    exact (ceilDiv_le_iff_le_mul hS).2 h1
  omega

/-! ## Helper lemmas about `fragmentFile` -/

lemma fragmentFile_length (data : List Nat) (S : Nat) (name : String) :
    (fragmentFile data S name).length = (data.length + S - 1) / S := by
  simp [fragmentFile]

/-- The slice `data[i*S : min((i+1)*S, len)]` is just `take S` of `drop (i*S)`. -/
lemma window_take (data : List Nat) (S i : Nat) :
    (data.drop (i * S)).take (min (i * S + S) data.length - i * S) =
    (data.drop (i * S)).take S := by
  rw [List.take_eq_take, List.length_drop]
  omega

lemma window_length (data : List Nat) (S i : Nat) :
    ((data.drop (i * S)).take S).length = min S (data.length - i * S) := by
  rw [List.length_take, List.length_drop]

lemma fragmentFile_get (data : List Nat) (S : Nat) (name : String) (i : Nat)
    (hi : i < (fragmentFile data S name).length) :
    (fragmentFile data S name).get ⟨i, hi⟩ =
      { Hash := sha256hex ((data.drop (i * S)).take S)
        Data := (data.drop (i * S)).take S
        Index := (i : Int)
        TotalFragments := (((data.length + S - 1) / S : Nat) : Int)
        Filename := name } := by
  simp only [fragmentFile, List.get_eq_getElem, List.getElem_map, List.getElem_range]
  rw [window_take]

lemma fragmentFile_mem {data : List Nat} {S : Nat} {name : String} {f : Fragment}
    (hf : f ∈ fragmentFile data S name) :
    ∃ i, i < (data.length + S - 1) / S ∧
      f = { Hash := sha256hex ((data.drop (i * S)).take S)
            Data := (data.drop (i * S)).take S
            Index := (i : Int)
            TotalFragments := (((data.length + S - 1) / S : Nat) : Int)
            Filename := name } := by
  simp only [fragmentFile, List.mem_map, List.mem_range] at hf
  obtain ⟨i, hi, hfi⟩ := hf
  refine ⟨i, hi, ?_⟩
  rw [← hfi, window_take]

/-! ## Helper lemmas about the in-place sort -/

lemma insertByIndex_perm (f : Fragment) (l : List Fragment) :
    (insertByIndex f l).Perm (f :: l) := by
  induction l with
  | nil => simp [insertByIndex]
  | cons g t ih =>
    rw [insertByIndex]
    by_cases h : f.Index ≤ g.Index
    · simp [h]
    · rw [if_neg h]
      exact (ih.cons g).trans (List.Perm.swap f g t)

lemma sortFragments_perm (l : List Fragment) : (sortFragments l).Perm l := by
  induction l with
  | nil => simp [sortFragments]
  | cons f fs ih =>
    rw [sortFragments]
    exact (insertByIndex_perm f (sortFragments fs)).trans (ih.cons f)

lemma sortFragments_sorted (l : List Fragment) (h : sortedByIndex l = true) :
    sortFragments l = l := by
  induction l with
  | nil => rfl
  | cons f fs ih =>
    cases fs with
    | nil => rfl
    | cons g t =>
      rw [sortedByIndex] at h
      simp only [Bool.and_eq_true, decide_eq_true_eq] at h
      rw [sortFragments, ih h.2, insertByIndex, if_pos h.1]

lemma sortedByIndex_map_range' (F : Nat → Fragment)
    (hF : ∀ i, (F i).Index ≤ (F (i + 1)).Index) :
    ∀ (n s : Nat), sortedByIndex ((List.range' s n).map F) = true := by
  intro n
  induction n with
  | zero => intro s; rfl
  | succ m ih =>
    intro s
    cases m with
    | zero => rfl
    | succ k =>
      rw [List.range'_succ, List.map_cons, List.range'_succ, List.map_cons]
      have h2 := ih (s + 1)
      rw [List.range'_succ, List.map_cons] at h2
      simp only [sortedByIndex, Bool.and_eq_true, decide_eq_true_eq]
      exact ⟨hF s, h2⟩

lemma fragmentFile_sorted (data : List Nat) (S : Nat) (name : String) :
    sortedByIndex (fragmentFile data S name) = true := by
  simp only [fragmentFile]
  rw [List.range_eq_range']
  apply sortedByIndex_map_range'
  intro i
  simp

/-! ## The concatenation of the fragment windows is the original byte list -/

lemma chunks_flatten (S : Nat) :
    ∀ (t : Nat) (data : List Nat), data.length ≤ t * S →
      ((List.range t).map (fun i => (data.drop (i * S)).take S)).flatten = data := by
  intro t
  induction t with
  | zero =>
    intro data h
    simp only [Nat.zero_mul, Nat.le_zero] at h
    rw [List.eq_nil_of_length_eq_zero h]
    rfl
  | succ m ih =>
    intro data h
    rw [List.range_succ_eq_map]
    simp only [List.map_cons, List.map_map, List.flatten_cons, Nat.zero_mul, List.drop_zero]
    have htail : ((List.range m).map (fun i => (data.drop (Nat.succ i * S)).take S)).flatten
        = data.drop S := by
      have hc : ∀ i ∈ List.range m,
          ((data.drop (Nat.succ i * S)).take S) = (((data.drop S).drop (i * S)).take S) := by
        intro i _
        rw [List.drop_drop]
        have hsi : Nat.succ i * S = S + i * S := by
          rw [Nat.succ_mul]
          exact Nat.add_comm _ _
        rw [hsi]
      rw [List.map_congr_left hc]
      apply ih
      rw [List.length_drop]
      have hsm : (m + 1) * S = m * S + S := by
        rw [Nat.add_mul, Nat.one_mul]
      omega
    have hmap : (List.range m).map ((fun i => (data.drop (i * S)).take S) ∘ Nat.succ)
        = (List.range m).map (fun i => (data.drop (Nat.succ i * S)).take S) := by
      apply List.map_congr_left
      intro i _
      rfl
    rw [hmap, htail, List.take_append_drop]

lemma fragmentFile_flatten (data : List Nat) (S : Nat) (name : String) (hS : 0 < S) :
    ((fragmentFile data S name).map Fragment.Data).flatten = data := by
  have hmap : (fragmentFile data S name).map Fragment.Data
      = (List.range ((data.length + S - 1) / S)).map (fun i => (data.drop (i * S)).take S) := by
    simp only [fragmentFile, List.map_map]
    apply List.map_congr_left
    intro i _
    simp only [Function.comp_apply]
    exact window_take data S i
  rw [hmap]
  apply chunks_flatten S
  rw [Nat.mul_comm]
  exact le_mul_totalFragments data.length S hS

/-! ## Helper lemmas about `assembleFile` and the stored-fragment fold -/

lemma assembleFile_fst (l : List Fragment) : (assembleFile l).1 = sortFragments l := by
  cases l with
  | nil => rfl
  | cons x xs =>
    simp only [assembleFile]
    split
    · rfl
    · rfl

lemma storeFold_not_mem (frags : List Fragment) (m : String → Option Fragment) (k : String)
    (hk : ∀ f ∈ frags, f.Hash ≠ k) :
    (frags.foldl (fun m frag => fun q => if q = frag.Hash then some frag else m q) m) k = m k := by
  induction frags generalizing m with
  | nil => rfl
  | cons a l ih =>
    rw [List.foldl_cons, ih _ (fun f hf => hk f (List.mem_cons_of_mem a hf))]
    show (if k = a.Hash then some a else m k) = m k
    exact if_neg (fun h => hk a (List.mem_cons_self a l) h.symm)

lemma storeFold_mem (frags : List Fragment) (m : String → Option Fragment) (k : String)
    (hk : ∃ f ∈ frags, f.Hash = k) :
    ∃ g, (frags.foldl (fun m frag => fun q => if q = frag.Hash then some frag else m q) m) k
        = some g ∧ g.Hash = k ∧ g ∈ frags := by
  induction frags generalizing m with
  | nil => simp at hk
  | cons a l ih =>
    rw [List.foldl_cons]
    by_cases hl : ∃ f ∈ l, f.Hash = k
    · obtain ⟨g, hg1, hg2, hg3⟩ := ih _ hl
      exact ⟨g, hg1, hg2, List.mem_cons_of_mem a hg3⟩
    · have hak : a.Hash = k := by
        obtain ⟨f, hf, hfk⟩ := hk
        rcases List.mem_cons.mp hf with h | h
        · rw [← h]; exact hfk
        · exact absurd ⟨f, h, hfk⟩ hl
      push_neg at hl
      rw [storeFold_not_mem l _ k hl]
      refine ⟨a, ?_, hak, List.mem_cons_self a l⟩
      show (if k = a.Hash then some a else m k) = some a
      rw [if_pos hak.symm]

/-! ## Claim theorems -/

/-- C1 (counterexample): for the zero-byte file and fragment size 1, the
round trip does not reproduce the file: fragmentation yields no fragments
and assembly of the empty sequence fails instead of returning the empty
byte sequence. -/
theorem assemble_fragment_empty_file_fails :
    fragmentFile [] 1 "f" = [] ∧
    (assembleFile (fragmentFile [] 1 "f")).2 = Except.error "no hay fragmentos para ensamblar" :=
  ⟨rfl, rfl⟩

/-- C1 (amended): for every NONEMPTY file contents and every fragment size
S > 0, assembling the fragments produced by fragmentation reproduces the
original byte sequence exactly (and the caller's slice, already sorted, is
left as is). -/
theorem assemble_fragment_roundtrip (data : List Nat) (S : Nat) (name : String)
    (hS : 0 < S) (hd : data ≠ []) :
    assembleFile (fragmentFile data S name) = (fragmentFile data S name, Except.ok data) := by
  have hN : 0 < data.length := List.length_pos.mpr hd
  have ht : 0 < (data.length + S - 1) / S := totalFragments_pos data.length S hS hN
  have hlen := fragmentFile_length data S name
  have hsorted := sortFragments_sorted _ (fragmentFile_sorted data S name)
  have hflat := fragmentFile_flatten data S name hS
  obtain ⟨x, xs, hF⟩ : ∃ x xs, fragmentFile data S name = x :: xs := by
    cases hF : fragmentFile data S name with
    | nil => rw [hF] at hlen; simp at hlen; omega
    | cons a l => exact ⟨a, l, rfl⟩
  have hxmem : x ∈ fragmentFile data S name := by
    rw [hF]; exact List.mem_cons_self x xs
  obtain ⟨i, hi, hxval⟩ := fragmentFile_mem hxmem
  have hxTotal : x.TotalFragments = (((data.length + S - 1) / S : Nat) : Int) := by
    rw [hxval]
  rw [hF] at hsorted hflat hlen ⊢
  have hcond : (((x :: xs).length : Nat) : Int)
      = ((sortFragments (x :: xs)).headD default).TotalFragments := by
    rw [hsorted, List.headD_cons, hxTotal, hlen]
  simp only [assembleFile]
  rw [if_pos hcond, hsorted, hflat]

/-- C1 (witness): a concrete nonempty round trip. -/
theorem assemble_fragment_roundtrip_witness :
    0 < 2 ∧ ([9, 8, 7] : List Nat) ≠ [] ∧
    assembleFile (fragmentFile [9, 8, 7] 2 "f")
      = (fragmentFile [9, 8, 7] 2 "f", Except.ok [9, 8, 7]) :=
  ⟨by decide, by decide, assemble_fragment_roundtrip [9, 8, 7] 2 "f" (by decide) (by decide)⟩

/-- C2: every fragment emitted by the fragmenter carries in `Hash` the
lowercase hex-encoded SHA-256 digest of its `Data`. -/
theorem fragment_hash_correct (data : List Nat) (S : Nat) (name : String) (hS : 0 < S)
    (f : Fragment) (hf : f ∈ fragmentFile data S name) :
    f.Hash = sha256hex f.Data := by
  obtain ⟨i, _, hval⟩ := fragmentFile_mem hf
  rw [hval]

/-- C2 (witness): the single fragment of the one-byte file `[7]`. -/
theorem fragment_hash_correct_witness :
    0 < 1 ∧
    (⟨sha256hex [7], [7], 0, 1, "f"⟩ : Fragment) ∈ fragmentFile [7] 1 "f" ∧
    (⟨sha256hex [7], [7], 0, 1, "f"⟩ : Fragment).Hash
      = sha256hex (⟨sha256hex [7], [7], 0, 1, "f"⟩ : Fragment).Data := by
  have hmem : (⟨sha256hex [7], [7], 0, 1, "f"⟩ : Fragment) ∈ fragmentFile [7] 1 "f" := by
    have h : fragmentFile [7] 1 "f" = [⟨sha256hex [7], [7], 0, 1, "f"⟩] := rfl
    rw [h]
    exact List.mem_singleton.mpr rfl
  exact ⟨Nat.one_pos, hmem, fragment_hash_correct [7] 1 "f" Nat.one_pos _ hmem⟩

/-- C6 (counterexample): `AssembleFile` sorts the caller's slice in place:
on an input whose fragments arrive out of index order, the caller's
sequence after the call differs from the sequence passed in. -/
theorem assemble_mutates_caller_sequence :
    (assembleFile [⟨"x", [1], 1, 2, "f"⟩, ⟨"y", [2], 0, 2, "f"⟩]).1
      ≠ [⟨"x", [1], 1, 2, "f"⟩, ⟨"y", [2], 0, 2, "f"⟩] := by
  decide

/-- C6 (amended): the returned bytes are a deterministic function of the
input sequence alone, but the call leaves the caller's slice equal to the
input sorted by index — unchanged only when the input was already sorted. -/
theorem assemble_sorts_in_place (frags : List Fragment) :
    (assembleFile frags).1 = sortFragments frags ∧
    (sortedByIndex frags = true → (assembleFile frags).1 = frags) := by
  refine ⟨assembleFile_fst frags, fun h => ?_⟩
  rw [assembleFile_fst frags, sortFragments_sorted frags h]

/-- C6 (witness): on an already-sorted input the slice is unchanged. -/
theorem assemble_sorts_in_place_witness :
    sortedByIndex [⟨"a", [1], 0, 1, "f"⟩] = true ∧
    (assembleFile [⟨"a", [1], 0, 1, "f"⟩]).1 = [⟨"a", [1], 0, 1, "f"⟩] :=
  ⟨by decide, (assemble_sorts_in_place [⟨"a", [1], 0, 1, "f"⟩]).2 (by decide)⟩

/-- C9: fragmenting a zero-byte file with any positive fragment size
succeeds with an empty fragment sequence, not an error. -/
theorem fragment_empty_file_ok (S : Nat) (name : String) (hS : 0 < S) :
    fragmentFileFromRead (Except.ok []) S name = Except.ok [] := by
  have h0 : (S - 1) / S = 0 := Nat.div_eq_of_lt (by omega)
  simp [fragmentFileFromRead, fragmentFile, h0]

/-- C9 (witness): fragment size 5. -/
theorem fragment_empty_file_ok_witness :
    0 < 5 ∧ fragmentFileFromRead (Except.ok []) 5 "f" = Except.ok [] :=
  ⟨by decide, fragment_empty_file_ok 5 "f" (by decide)⟩

/-- C10: assembling an empty fragment sequence always fails (before any
output is written), so the round trip cannot succeed for a zero-byte
file. -/
theorem assemble_empty_always_fails (S : Nat) (name : String) (hS : 0 < S) :
    assembleFile [] = ([], Except.error "no hay fragmentos para ensamblar") ∧
    assembleFile (fragmentFile [] S name)
      = ([], Except.error "no hay fragmentos para ensamblar") := by
  have h0 : fragmentFile [] S name = [] := by
    have hz : (S - 1) / S = 0 := Nat.div_eq_of_lt (by omega)
    simp [fragmentFile, hz]
  rw [h0]
  exact ⟨rfl, rfl⟩

/-- C10 (witness): fragment size 3. -/
theorem assemble_empty_always_fails_witness :
    0 < 3 ∧
    (assembleFile [] = ([], Except.error "no hay fragmentos para ensamblar") ∧
      assembleFile (fragmentFile [] 3 "f")
        = ([], Except.error "no hay fragmentos para ensamblar")) :=
  ⟨by decide, assemble_empty_always_fails 3 "f" (by decide)⟩

/-- C3: for a file of N bytes and fragment size S > 0 the fragmenter emits
exactly `(N + S - 1) / S = ceil(N/S)` fragments; fragment i carries index i
and the total count; every fragment before the last has exactly S bytes and
the last has `N mod S` bytes (S when `N mod S = 0`). -/
theorem fragment_count_and_sizes (data : List Nat) (S : Nat) (name : String) (hS : 0 < S) :
    (fragmentFile data S name).length = (data.length + S - 1) / S ∧
    ∀ (i : Nat) (hi : i < (fragmentFile data S name).length),
      ((fragmentFile data S name).get ⟨i, hi⟩).Index = (i : Int) ∧
      ((fragmentFile data S name).get ⟨i, hi⟩).TotalFragments
        = (((data.length + S - 1) / S : Nat) : Int) ∧
      (i < (data.length + S - 1) / S - 1 →
        ((fragmentFile data S name).get ⟨i, hi⟩).Data.length = S) ∧
      (i = (data.length + S - 1) / S - 1 →
        ((fragmentFile data S name).get ⟨i, hi⟩).Data.length
          = if data.length % S = 0 then S else data.length % S) := by
  refine ⟨fragmentFile_length data S name, ?_⟩
  intro i hi
  have hlen := fragmentFile_length data S name
  have hit : i < (data.length + S - 1) / S := by rw [hlen] at hi; exact hi
  have hN : 0 < data.length := by
    by_contra h
    have h0 : data.length = 0 := by omega
    rw [h0, totalFragments_eq_zero S hS] at hit
    omega
  have hle := le_mul_totalFragments data.length S hS
  have hlt := mul_pred_lt data.length S hS hN
  rw [fragmentFile_get data S name i hi]
  refine ⟨rfl, rfl, ?_, ?_⟩
  · intro hilt
    rw [window_length]
    have hmono : S * (i + 1) ≤ S * ((data.length + S - 1) / S - 1) :=
      Nat.mul_le_mul_left S (by omega)
    have hd1 : S * (i + 1) = S * i + S := by rw [Nat.mul_add, Nat.mul_one]
    have hd2 : S * i = i * S := Nat.mul_comm S i
    omega
  · intro hieq
    rw [window_length]
    have hd2 : i * S = S * ((data.length + S - 1) / S - 1) := by
      rw [hieq, Nat.mul_comm]
    have htp : 0 < (data.length + S - 1) / S := by omega
    have hd1 : S * ((data.length + S - 1) / S) = S * ((data.length + S - 1) / S - 1) + S := by
      conv_lhs => rw [← Nat.succ_pred_eq_of_pos htp]
      rw [Nat.mul_succ, Nat.pred_eq_sub_one]
    have hmod : (data.length - i * S) % S = data.length % S := by
      have hx : data.length = (data.length - i * S) + S * ((data.length + S - 1) / S - 1) := by
        omega
      conv_rhs => rw [hx]
      rw [Nat.add_mul_mod_self_left]
    have ha1 : 1 ≤ data.length - i * S := by omega
    have ha2 : data.length - i * S ≤ S := by omega
    by_cases hr : data.length % S = 0
    · rw [if_pos hr]
      rw [hr] at hmod
      rcases Nat.lt_or_ge (data.length - i * S) S with h | h
      · rw [Nat.mod_eq_of_lt h] at hmod
        omega
      · omega
    · rw [if_neg hr]
      rcases Nat.lt_or_ge (data.length - i * S) S with h | h
      · rw [Nat.mod_eq_of_lt h] at hmod
        omega
      · have hS2 : data.length - i * S = S := by omega
        rw [hS2, Nat.mod_self] at hmod
        omega

/-- C3 (witness): the 3-byte file `[1,2,3]` with fragment size 2: two
fragments, the first of 2 bytes, the last of 1 byte. -/
theorem fragment_count_and_sizes_witness :
    0 < 2 ∧
    ((fragmentFile [1, 2, 3] 2 "f").length = 2 ∧
      ∀ (i : Nat) (hi : i < (fragmentFile [1, 2, 3] 2 "f").length),
        ((fragmentFile [1, 2, 3] 2 "f").get ⟨i, hi⟩).Index = (i : Int) ∧
        ((fragmentFile [1, 2, 3] 2 "f").get ⟨i, hi⟩).TotalFragments = ((2 : Nat) : Int) ∧
        (i < 1 → ((fragmentFile [1, 2, 3] 2 "f").get ⟨i, hi⟩).Data.length = 2) ∧
        (i = 1 → ((fragmentFile [1, 2, 3] 2 "f").get ⟨i, hi⟩).Data.length = 1)) :=
  ⟨by decide, fragment_count_and_sizes [1, 2, 3] 2 "f" (by decide)⟩

/-- C4 (counterexample): the assembler does NOT verify that indices form a
contiguous duplicate-free range: two copies of an index-0 fragment whose
`TotalFragments` field claims 2 are assembled successfully instead of
failing with an incompleteness error. -/
theorem assemble_duplicate_indices_accepted :
    assembleFile [⟨"h", [0], 0, 2, "f"⟩, ⟨"h", [0], 0, 2, "f"⟩]
      = ([⟨"h", [0], 0, 2, "f"⟩, ⟨"h", [0], 0, 2, "f"⟩], Except.ok [0, 0]) :=
  rfl

/-- C4 (amended): the assembler only compares the fragment COUNT with the
`totalFragments` field of the minimum-index fragment.  Consequently, for
the fragment list actually produced by fragmenting a file, every strict
subset still fails (with the incomplete-count error when nonempty, and
with the distinct no-fragments error when empty), but gapped or duplicated
indices with a matching count are accepted. -/
theorem assemble_strict_subset_fails (data : List Nat) (S : Nat) (name : String) (hS : 0 < S)
    (sub : List Fragment) (hsub : sub.Sublist (fragmentFile data S name))
    (hlt : sub.length < (fragmentFile data S name).length) :
    ∃ e, (assembleFile sub).2 = Except.error e := by
  cases hsubl : sub with
  | nil => exact ⟨_, rfl⟩
  | cons x xs =>
    rw [hsubl] at hsub hlt
    have hperm := sortFragments_perm (x :: xs)
    obtain ⟨y, ys, hsorted⟩ : ∃ y ys, sortFragments (x :: xs) = y :: ys := by
      cases hq : sortFragments (x :: xs) with
      | nil =>
        rw [hq] at hperm
        have hL := hperm.length_eq
        simp at hL
      | cons a l => exact ⟨a, l, rfl⟩
    have hymem : y ∈ (x :: xs) := by
      rw [← hperm.mem_iff, hsorted]
      exact List.mem_cons_self y ys
    have hymem2 : y ∈ fragmentFile data S name := hsub.subset hymem
    obtain ⟨i, hi, hyval⟩ := fragmentFile_mem hymem2
    have hyTotal : y.TotalFragments = (((data.length + S - 1) / S : Nat) : Int) := by
      rw [hyval]
    have hlen := fragmentFile_length data S name
    have hcond : ¬ (((x :: xs).length : Int)
        = ((sortFragments (x :: xs)).headD default).TotalFragments) := by
      rw [hsorted, List.headD_cons, hyTotal]
      rw [hlen] at hlt
      intro hC
      have hC2 : (x :: xs).length = (data.length + S - 1) / S := by exact_mod_cast hC
      omega
    simp only [assembleFile]
    rw [if_neg hcond]
    exact ⟨_, rfl⟩

/-- C4 (witness): one fragment out of the two of `[1,2]` at size 1. -/
theorem assemble_strict_subset_fails_witness :
    0 < 1 ∧ ((fragmentFile [1, 2] 1 "f").take 1).Sublist (fragmentFile [1, 2] 1 "f") ∧
    ((fragmentFile [1, 2] 1 "f").take 1).length < (fragmentFile [1, 2] 1 "f").length ∧
    ∃ e, (assembleFile ((fragmentFile [1, 2] 1 "f").take 1)).2 = Except.error e :=
  ⟨Nat.one_pos, List.take_sublist 1 _, by decide,
    assemble_strict_subset_fails [1, 2] 1 "f" Nat.one_pos _ (List.take_sublist 1 _) (by decide)⟩

set_option maxRecDepth 100000 in
/-- C5 (code evidence): `AssembleFile` performs no hash verification.  A
single fragment whose declared hash `"00"` differs from the SHA-256 of its
data `[1]` is assembled successfully, and the mismatched bytes are written
out, instead of the operation failing with an integrity error. -/
theorem assemble_skips_integrity_check :
    sha256hex [1] ≠ "00" ∧
    assembleFile [⟨"00", [1], 0, 1, "f"⟩]
      = ([⟨"00", [1], 0, 1, "f"⟩], Except.ok [1]) :=
  ⟨by decide, rfl⟩

/-- C7: the fragment-request handler echoes the requested hash; when the
store holds the hash the response carries the stored bytes and
`found = true`, otherwise empty data and `found = false`. -/
theorem handle_fragment_request_correct (store : String → Option Fragment)
    (req : FragmentRequest) :
    (∀ f, store req.hash = some f →
      handleFragmentRequest store req = ⟨req.hash, f.Data, true⟩) ∧
    (store req.hash = none →
      handleFragmentRequest store req = ⟨req.hash, [], false⟩) := by
  constructor
  · intro f hf
    simp [handleFragmentRequest, hf]
  · intro hf
    simp [handleFragmentRequest, hf]

/-- C7 (witness): a one-entry store answering for key `"k"`. -/
theorem handle_fragment_request_correct_witness :
    (fun h => if h = "k" then some (⟨"h5", [5], 0, 1, "f"⟩ : Fragment) else none) "k"
      = some (⟨"h5", [5], 0, 1, "f"⟩ : Fragment) ∧
    handleFragmentRequest
        (fun h => if h = "k" then some (⟨"h5", [5], 0, 1, "f"⟩ : Fragment) else none) ⟨"k"⟩
      = ⟨"k", [5], true⟩ :=
  ⟨rfl, (handle_fragment_request_correct _ _).1 _ rfl⟩

/-- C8: upload succeeds exactly when the file read and the distributed-index
publication succeed (local map updates cannot fail); a failed read is
propagated; and when publication fails the error is returned while the
local fragment store already holds, under each fragment's hash, a fragment
of the file bearing that hash, and the catalog already holds the file's
`FileInfo` — the partial state is surfaced, not rolled back. -/
theorem upload_partial_success_surfaced (n : NodeState) (data : List Nat) (S : Nat)
    (name : String) (publishOk : Bool) (e0 : String) :
    ((uploadFile n (Except.ok data) S name publishOk).2 = Except.ok () ↔ publishOk = true) ∧
    (uploadFile n (Except.error e0) S name publishOk).2
      = Except.error ("error leyendo archivo: " ++ e0) ∧
    (publishOk = false →
      (∃ e, (uploadFile n (Except.ok data) S name publishOk).2 = Except.error e) ∧
      (∀ f ∈ fragmentFile data S name,
        ∃ g, (uploadFile n (Except.ok data) S name publishOk).1.StoredFragments f.Hash
            = some g ∧ g.Hash = f.Hash ∧ g ∈ fragmentFile data S name) ∧
      (uploadFile n (Except.ok data) S name publishOk).1.FileMetadata name
        = some ⟨name, (fragmentFile data S name).map Fragment.Hash,
            ((fragmentFile data S name).length : Int)⟩) := by
  refine ⟨?_, rfl, ?_⟩
  · cases publishOk with
    | true => simp [uploadFile, fragmentFileFromRead]
    | false => simp [uploadFile, fragmentFileFromRead]
  · intro hpub
    subst hpub
    refine ⟨⟨_, rfl⟩, ?_, ?_⟩
    · intro f hf
      apply storeFold_mem
      exact ⟨f, hf, rfl⟩
    · exact if_pos rfl

/-- C8 (witness): publish failure for the one-byte file `[3]` on an empty
node: the error is surfaced while the catalog entry is present. -/
theorem upload_partial_success_surfaced_witness :
    (∃ e, (uploadFile ⟨fun _ => none, fun _ => none⟩ (Except.ok [3]) 1 "f" false).2
      = Except.error e) ∧
    (uploadFile ⟨fun _ => none, fun _ => none⟩ (Except.ok [3]) 1 "f" false).1.FileMetadata "f"
      = some ⟨"f", (fragmentFile [3] 1 "f").map Fragment.Hash,
          ((fragmentFile [3] 1 "f").length : Int)⟩ :=
  ⟨((upload_partial_success_surfaced ⟨fun _ => none, fun _ => none⟩ [3] 1 "f" false "e").2.2
      rfl).1,
    ((upload_partial_success_surfaced ⟨fun _ => none, fun _ => none⟩ [3] 1 "f" false "e").2.2
      rfl).2.2⟩
